import Mathlib

/-!
Verification of the text transformation performed by `update_app_tsx` in
`src/update_notifications.py`.  The file content is modelled as `List Char`;
Python `str.replace` and `re.sub` with a fully escaped (hence literal) pattern
are modelled by `replaceAll` (leftmost, non-overlapping, scan resumes after
each replaced occurrence); `str.find` is modelled by `findSub`; the function
excision loop is modelled by `excise`/`step5`.  File I/O is omitted.
-/

set_option maxRecDepth 20000

/-- The apostrophe character (kept out of string literals). -/
def apos : Char := Char.ofNat 39

/-- Substring tested by `if 'import \x7b useNotifications \x7d' not in content`. -/
def importHookMarker : List Char := "import \x7b useNotifications \x7d".data

/-- The anchor line used as insertion point. -/
def anchorLine : List Char := "import \x7b DeletedPost \x7d from \"./types\";".data

/-- The new import line the script inserts. -/
def newImportLine : List Char :=
  "import \x7b useNotifications \x7d from \"./hooks/useNotifications\";".data

/-- Replacement text for the anchor: anchor line, newline, new import line. -/
def importReplacement : List Char := anchorLine ++ '\n' :: newImportLine

/-- The boolean-flag state declaration deleted in step 2 (the regex is fully
escaped, so it matches exactly this literal). -/
def statePattern1 : List Char :=
  "const [notificationScheduled, setNotificationScheduled] = useState(false);".data

/-- The string-union-typed state declaration deleted in step 3. -/
def statePattern2 : List Char :=
  "const [notificationStatus, setNotificationStatus] = useState<".data
  ++ [apos] ++ "unknown".data ++ [apos] ++ " | ".data
  ++ [apos] ++ "granted".data ++ [apos] ++ " | ".data
  ++ [apos] ++ "denied".data ++ [apos] ++ " | ".data
  ++ [apos] ++ "unsupported".data ++ [apos] ++ ">(".data
  ++ [apos] ++ "unknown".data ++ [apos] ++ ");".data

/-- Step 4's literal target: the boolean-flag declaration with two-space indent. -/
def indentedState1 : List Char := ' ' :: ' ' :: statePattern1

/-- The multi-line hook-destructuring block substituted in step 4. -/
def replaceText : List Char :=
  ("  const \x7b\n    notification,\n    notificationStatus,\n    notificationScheduled,\n"
    ++ "    setNotificationScheduled,\n    requestNotificationPermission,\n"
    ++ "    showNotification,\n    scheduleNotification,\n    clearNotification\n"
    ++ "  \x7d = useNotifications();").data

/-- First function signature removed by the excision loop. -/
def showSig : List Char := "const showNotification = (message: string) => \x7b".data

/-- Second function signature removed by the excision loop. -/
def requestSig : List Char := "const requestNotificationPermission = async () => \x7b".data

/-- Third function signature removed by the excision loop. -/
def scheduleSig : List Char :=
  "const scheduleNotification = (title: string, options?: NotificationOptions) => \x7b".data

/-- The closing marker searched for by the excision loop. -/
def closeMarker : List Char := "\n  \x7d".data

/-- `prefB p s` decides whether `p` is a prefix of `s`. -/
def prefB : List Char → List Char → Bool
  | [], _ => true
  | _ :: _, [] => false
  | a :: as, b :: bs => a == b && prefB as bs

/-- `containsSub p s` decides whether `p` occurs as a contiguous substring of `s`
(Python's `in`). -/
def containsSub (p : List Char) : List Char → Bool
  | [] => prefB p []
  | c :: t => prefB p (c :: t) || containsSub p t

/-- `findSub p s` is the index of the leftmost occurrence of `p` in `s`
(Python's `str.find`, with `none` for `-1`). -/
def findSub (p : List Char) : List Char → Option Nat
  | [] => if prefB p [] then some 0 else none
  | c :: t => if prefB p (c :: t) then some 0 else (findSub p t).map (· + 1)

/-- Fuel-indexed engine for `replaceAll`. -/
def replaceAllF (p r : List Char) : Nat → List Char → List Char
  | 0, s => s
  | _ + 1, [] => []
  | n + 1, c :: rest =>
    if prefB p (c :: rest) then r ++ replaceAllF p r n ((c :: rest).drop p.length)
    else c :: replaceAllF p r n rest

/-- Replace every occurrence of `p` in `s` by `r`, scanning left to right and
resuming after each replaced occurrence (Python `str.replace` / `re.sub` with a
literal pattern). -/
def replaceAll (p r s : List Char) : List Char := replaceAllF p r s.length s

/-- Number of positions of `s` at which `p` occurs. -/
def countSub (p : List Char) : List Char → Nat
  | [] => if prefB p [] then 1 else 0
  | c :: t => (if prefB p (c :: t) then 1 else 0) + countSub p t

/-- Step 1 of `update_app_tsx`: conditionally insert the new import line after
every occurrence of the anchor line. -/
def step1 (c : List Char) : List Char :=
  if containsSub importHookMarker c then c
  else replaceAll anchorLine importReplacement c

/-- Step 2: delete every occurrence of the boolean-flag state declaration. -/
def step2 (c : List Char) : List Char := replaceAll statePattern1 [] c

/-- Step 3: delete every occurrence of the union-typed state declaration. -/
def step3 (c : List Char) : List Char := replaceAll statePattern2 [] c

/-- Step 4: replace the indented boolean-flag declaration with the hook block. -/
def step4 (c : List Char) : List Char := replaceAll indentedState1 replaceText c

/-- One iteration of the excision loop: find the signature, find the closing
marker after it, and keep `content[:start] ++ content[start+e+3:]`
(Python `content[:start] + content[end+3:]` with `end = start + e`). -/
def excise (sig c : List Char) : List Char :=
  match findSub sig c with
  | none => c
  | some start =>
    match findSub closeMarker (c.drop start) with
    | none => c
    | some e => c.take start ++ c.drop (start + e + 3)

/-- Step 5: excise the three notification functions, in the loop's order. -/
def step5 (c : List Char) : List Char :=
  excise scheduleSig (excise requestSig (excise showSig c))

/-- The full text transformation of `update_app_tsx` (file I/O omitted). -/
def update_app_tsx (c : List Char) : List Char :=
  step5 (step4 (step3 (step2 (step1 c))))

/-- Every occurrence of `p` in `s` is followed by end-of-text or by a character
that does not occur in `q`. -/
def FollowedOk (p q s : List Char) : Prop :=
  ∀ i, i < s.length → prefB p (s.drop i) = true →
    ∀ d ∈ (s.drop (i + p.length)).take 1, d ∉ q

instance (p q s : List Char) : Decidable (FollowedOk p q s) := by
  unfold FollowedOk; infer_instance

/-- `p` matches at none of the positions below `n`. -/
def noMatchBelow (p s : List Char) (n : Nat) : Prop :=
  ∀ i, i < n → prefB p (s.drop i) = false

instance (p s : List Char) (n : Nat) : Decidable (noMatchBelow p s n) := by
  unfold noMatchBelow; infer_instance

/-- `p` has no nonempty proper border: no proper suffix of `p` is a prefix of `p`.
This rules out overlapping occurrences of `p`. -/
def borderFree (p : List Char) : Prop :=
  ∀ k, k < p.length → 0 < k → prefB (p.drop k) p = false

instance (p : List Char) : Decidable (borderFree p) := by
  unfold borderFree; infer_instance


/-! ### Bridges between the boolean scanners and `List.IsPrefix` / `List.IsInfix` -/

theorem prefB_iff (p s : List Char) : prefB p s = true ↔ p <+: s := by
  induction p generalizing s with
  | nil => simp [prefB, List.nil_prefix]
  | cons a as ih =>
    cases s with
    | nil => simp [prefB, List.prefix_nil]
    | cons b bs =>
      simp [prefB, Bool.and_eq_true, beq_iff_eq, ih, List.cons_prefix_cons]

theorem prefB_false_iff (p s : List Char) : prefB p s = false ↔ ¬ p <+: s := by
  rw [← prefB_iff]
  cases prefB p s <;> simp

theorem containsSub_iff (p s : List Char) : containsSub p s = true ↔ p <:+: s := by
  induction s with
  | nil => simp [containsSub, prefB_iff, List.infix_nil, List.prefix_nil]
  | cons c t ih =>
    simp [containsSub, Bool.or_eq_true, prefB_iff, ih, List.infix_cons_iff]

theorem containsSub_false_iff (p s : List Char) : containsSub p s = false ↔ ¬ p <:+: s := by
  rw [← containsSub_iff]
  cases containsSub p s <;> simp

/-! ### Small list helpers -/

theorem dropAdd (s : List Char) : ∀ i j : Nat, (s.drop i).drop j = s.drop (i + j) := by
  intro i j
  rw [List.drop_drop, Nat.add_comm]

theorem drop_append_of_left_le (x b : List Char) (m : Nat) (hm : x.length ≤ m) :
    (x ++ b).drop m = b.drop (m - x.length) := by
  have e : m = x.length + (m - x.length) := by omega
  calc (x ++ b).drop m = (x ++ b).drop (x.length + (m - x.length)) := by rw [← e]
    _ = b.drop (m - x.length) := List.drop_append _

/-- If `p` matches inside `s` at position `i` and ends at or before `k`,
then `p` is an infix of `s.take k`. -/
theorem infix_take_of_match (p s : List Char) (i k : Nat) (hp : p ≠ [])
    (h : p <+: s.drop i) (hk : i + p.length ≤ k) : p <:+: s.take k := by
  obtain ⟨u, hu⟩ := h
  have hilen : i ≤ s.length := by
    by_contra hgt
    have hnil : s.drop i = [] := List.drop_eq_nil_of_le (by omega)
    rw [hnil] at hu
    exact hp (List.append_eq_nil.mp hu).1
  refine ⟨s.take i, u.take (k - i - p.length), ?_⟩
  have h1 : s.take k = (s.take i) ++ ((p ++ u).take (k - i)) := by
    have e1 : s = s.take i ++ (p ++ u) := by
      rw [hu, List.take_append_drop]
    have e2 : k = (s.take i).length + (k - i) := by
      rw [List.length_take]; omega
    calc s.take k = (s.take i ++ (p ++ u)).take ((s.take i).length + (k - i)) := by
          rw [← e2, ← e1]
      _ = s.take i ++ (p ++ u).take (k - i) := List.take_append _
  have h2 : (p ++ u).take (k - i) = p ++ u.take (k - i - p.length) := by
    have e3 : k - i = p.length + (k - i - p.length) := by omega
    calc (p ++ u).take (k - i) = (p ++ u).take (p.length + (k - i - p.length)) := by
          rw [← e3]
      _ = p ++ u.take (k - i - p.length) := List.take_append _
  rw [h1, h2, List.append_assoc]

/-- An infix of `x ++ [c]` that does not contain `c` is an infix of `x`. -/
theorem infix_of_infix_append_single (q x : List Char) (c : Char) (hq : q ≠ [])
    (hc : c ∉ q) (h : q <:+: x ++ [c]) : q <:+: x := by
  obtain ⟨pre, suf, heq⟩ := h
  rcases List.eq_nil_or_concat suf with rfl | ⟨s2, c2, hs2⟩
  · rw [List.append_nil] at heq
    have hq2 : q.dropLast ++ [q.getLast hq] = q := List.dropLast_append_getLast hq
    have heq2 : (pre ++ q.dropLast) ++ [q.getLast hq] = x ++ [c] := by
      rw [List.append_assoc, hq2]; exact heq
    obtain ⟨-, h2⟩ := List.append_inj' heq2 rfl
    have hqc : q.getLast hq = c := by injection h2 with h3 h4
    exact absurd (hqc ▸ List.getLast_mem hq) hc
  · subst hs2
    rw [List.concat_eq_append] at heq
    have heq2 : (pre ++ q ++ s2) ++ [c2] = x ++ [c] := by
      rw [← heq]; simp [List.append_assoc]
    obtain ⟨h1, -⟩ := List.append_inj' heq2 rfl
    exact ⟨pre, s2, h1⟩

/-- Two overlapping matches of `p` give a nonempty proper border of `p`. -/
theorem overlap_border (p s : List Char) (i j : Nat) (hij : i < j) (hj : j < i + p.length)
    (hi : p <+: s.drop i) (hjm : p <+: s.drop j) : (p.drop (j - i)) <+: p := by
  obtain ⟨u, hu⟩ := hi
  have h1 : (s.drop i).drop (j - i) = s.drop j := by
    rw [dropAdd]; congr 1; omega
  rw [← h1, ← hu, List.drop_append_of_le_length (show j - i ≤ p.length by omega)] at hjm
  obtain ⟨w, hw⟩ := hjm
  have hlen : (p.drop (j - i)).length ≤ p.length := by
    rw [List.length_drop]; omega
  have key : p.take (p.drop (j - i)).length = p.drop (j - i) := by
    have h3 := congrArg (List.take (p.drop (j - i)).length) hw
    rw [List.take_left] at h3
    rw [List.take_append_of_le_length hlen] at h3
    exact h3
  rw [← key]
  exact List.take_prefix _ _

/-! ### Unfolding equations for `replaceAll` -/

theorem replaceAllF_fuel (p r : List Char) (hp : p ≠ []) :
    ∀ n m s, s.length ≤ n → s.length ≤ m → replaceAllF p r n s = replaceAllF p r m s := by
  have hplen : 0 < p.length := List.length_pos.mpr hp
  intro n
  induction n with
  | zero =>
    intro m s hn hm
    have hs : s = [] := List.eq_nil_of_length_eq_zero (by omega)
    subst hs
    cases m <;> rfl
  | succ n ih =>
    intro m s hn hm
    cases s with
    | nil => cases m <;> rfl
    | cons c t =>
      cases m with
      | zero => simp at hm
      | succ m =>
        simp only [replaceAllF]
        by_cases h : prefB p (c :: t) = true
        · rw [if_pos h, if_pos h]
          congr 1
          apply ih
          · rw [List.length_drop]
            simp only [List.length_cons] at hn ⊢
            omega
          · rw [List.length_drop]
            simp only [List.length_cons] at hm ⊢
            omega
        · rw [if_neg h, if_neg h]
          congr 1
          apply ih
          · simp only [List.length_cons] at hn; omega
          · simp only [List.length_cons] at hm; omega

theorem replaceAll_nil (p r : List Char) : replaceAll p r [] = [] := rfl

theorem replaceAll_cons_neg (p r : List Char) (c : Char) (t : List Char)
    (h : prefB p (c :: t) = false) :
    replaceAll p r (c :: t) = c :: replaceAll p r t := by
  show replaceAllF p r (t.length + 1) (c :: t) = _
  simp only [replaceAllF]
  rw [if_neg (by simp [h])]
  rfl

theorem replaceAll_cons_pos (p r : List Char) (hp : p ≠ []) (c : Char) (t : List Char)
    (h : prefB p (c :: t) = true) :
    replaceAll p r (c :: t) = r ++ replaceAll p r ((c :: t).drop p.length) := by
  have hplen : 0 < p.length := List.length_pos.mpr hp
  show replaceAllF p r (t.length + 1) (c :: t) = _
  simp only [replaceAllF]
  rw [if_pos h]
  congr 1
  apply replaceAllF_fuel p r hp
  · rw [List.length_drop]
    simp only [List.length_cons]
    omega
  · exact Nat.le_refl _

theorem replaceAll_pref_match (p r t : List Char) (hp : p ≠ []) :
    replaceAll p r (p ++ t) = r ++ replaceAll p r t := by
  cases p with
  | nil => exact absurd rfl hp
  | cons a as =>
    have h : prefB (a :: as) (a :: (as ++ t)) = true := by
      rw [prefB_iff]
      exact ⟨t, by simp⟩
    rw [List.cons_append, replaceAll_cons_pos (a :: as) r hp a (as ++ t) h]
    congr 2
    rw [show (a :: (as ++ t)) = (a :: as) ++ t by simp, List.drop_left]

theorem replaceAll_id_of_not_contains (p r s : List Char) (h : containsSub p s = false) :
    replaceAll p r s = s := by
  induction s with
  | nil => rfl
  | cons c t ih =>
    simp only [containsSub, Bool.or_eq_false_iff] at h
    rw [replaceAll_cons_neg p r c t h.1, ih h.2]

theorem replaceAll_skip (p r : List Char) :
    ∀ (a t : List Char), (∀ i, i < a.length → ¬ p <+: (a ++ t).drop i) →
    replaceAll p r (a ++ t) = a ++ replaceAll p r t := by
  intro a
  induction a with
  | nil =>
    intro t _
    rfl
  | cons c a2 ih =>
    intro t hno
    have h0 : prefB p (c :: (a2 ++ t)) = false := by
      rw [prefB_false_iff]
      have h1 := hno 0 (by simp)
      rwa [List.drop_zero, List.cons_append] at h1
    have hrec : ∀ i, i < a2.length → ¬ p <+: (a2 ++ t).drop i := by
      intro i hi
      have h1 := hno (i + 1) (by simp only [List.length_cons]; omega)
      rwa [List.cons_append, List.drop_succ_cons] at h1
    rw [List.cons_append, replaceAll_cons_neg p r c (a2 ++ t) h0, ih t hrec, List.cons_append]

/-! ### `findSub` lemmas -/

theorem findSub_none_of_not_contains (p s : List Char) (h : containsSub p s = false) :
    findSub p s = none := by
  induction s with
  | nil =>
    simp only [containsSub] at h
    simp [findSub, h]
  | cons c t ih =>
    simp only [containsSub, Bool.or_eq_false_iff] at h
    simp [findSub, h.1, ih h.2]

theorem findSub_some (p : List Char) (hp : p ≠ []) :
    ∀ (s : List Char) (n : Nat), p <+: s.drop n →
    (∀ i, i < n → prefB p (s.drop i) = false) →
    findSub p s = some n := by
  intro s
  induction s with
  | nil =>
    intro n h _
    rw [List.drop_nil] at h
    exact absurd (List.prefix_nil.mp h) hp
  | cons c t ih =>
    intro n h hmin
    cases n with
    | zero =>
      rw [List.drop_zero] at h
      simp [findSub, (prefB_iff p (c :: t)).mpr h]
    | succ n =>
      have h0 : prefB p (c :: t) = false := by
        have h1 := hmin 0 (Nat.succ_pos n)
        rwa [List.drop_zero] at h1
      simp only [findSub]
      rw [if_neg (by simp [h0])]
      rw [ih n (by rwa [List.drop_succ_cons] at h)
        (fun i hi => by
          have h2 := hmin (i + 1) (by omega)
          rwa [List.drop_succ_cons] at h2)]
      rfl

/-! ### `countSub` lemmas -/

theorem countSub_nil (p : List Char) (hp : p ≠ []) : countSub p [] = 0 := by
  have h : prefB p [] = false := by
    rw [prefB_false_iff, List.prefix_nil]
    exact hp
  simp [countSub, h]

theorem countSub_cons_le (p : List Char) (c : Char) (t : List Char) :
    countSub p t ≤ countSub p (c :: t) := by
  simp only [countSub]
  exact Nat.le_add_left _ _

theorem countSub_zero_of_no_match (p : List Char) (hp : p ≠ []) :
    ∀ s, (∀ i, ¬ p <+: s.drop i) → countSub p s = 0 := by
  intro s
  induction s with
  | nil => intro _; exact countSub_nil p hp
  | cons c t ih =>
    intro h
    have h0 : prefB p (c :: t) = false := by
      rw [prefB_false_iff]
      have h1 := h 0
      rwa [List.drop_zero] at h1
    simp only [countSub, h0, if_false, Bool.false_eq_true, Nat.zero_add]
    exact ih (fun i => by
      have h1 := h (i + 1)
      rwa [List.drop_succ_cons] at h1)

theorem countSub_pos (p : List Char) (hp : p ≠ []) :
    ∀ (s : List Char) (i : Nat), p <+: s.drop i → 1 ≤ countSub p s := by
  intro s
  induction s with
  | nil =>
    intro i h
    rw [List.drop_nil] at h
    exact absurd (List.prefix_nil.mp h) hp
  | cons c t ih =>
    intro i h
    cases i with
    | zero =>
      rw [List.drop_zero] at h
      simp [countSub, (prefB_iff p (c :: t)).mpr h]
    | succ i =>
      rw [List.drop_succ_cons] at h
      calc 1 ≤ countSub p t := ih i h
        _ ≤ countSub p (c :: t) := countSub_cons_le p c t

theorem countSub_exists_of_pos (p : List Char) :
    ∀ s, 1 ≤ countSub p s → ∃ i, p <+: s.drop i := by
  intro s
  induction s with
  | nil =>
    intro h
    refine ⟨0, ?_⟩
    rw [List.drop_zero]
    by_cases hb : prefB p [] = true
    · exact (prefB_iff p []).mp hb
    · simp [countSub, hb] at h
  | cons c t ih =>
    intro h
    by_cases hb : prefB p (c :: t) = true
    · exact ⟨0, by rw [List.drop_zero]; exact (prefB_iff p (c :: t)).mp hb⟩
    · simp only [countSub, hb, if_false, Bool.false_eq_true, Nat.zero_add] at h
      obtain ⟨i, hi⟩ := ih h
      exact ⟨i + 1, by rwa [List.drop_succ_cons]⟩

theorem countSub_ge_two (p : List Char) (hp : p ≠ []) :
    ∀ (s : List Char) (i j : Nat), i < j → p <+: s.drop i → p <+: s.drop j →
    2 ≤ countSub p s := by
  intro s
  induction s with
  | nil =>
    intro i j _ hi _
    rw [List.drop_nil] at hi
    exact absurd (List.prefix_nil.mp hi) hp
  | cons c t ih =>
    intro i j hij hi hj
    cases i with
    | zero =>
      rw [List.drop_zero] at hi
      obtain ⟨j2, rfl⟩ : ∃ j2, j = j2 + 1 := ⟨j - 1, by omega⟩
      rw [List.drop_succ_cons] at hj
      have h1 : 1 ≤ countSub p t := countSub_pos p hp t j2 hj
      simp only [countSub, (prefB_iff p (c :: t)).mpr hi, if_true]
      omega
    | succ i =>
      obtain ⟨j2, rfl⟩ : ∃ j2, j = j2 + 1 := ⟨j - 1, by omega⟩
      rw [List.drop_succ_cons] at hi hj
      calc 2 ≤ countSub p t := ih i j2 (by omega) hi hj
        _ ≤ countSub p (c :: t) := countSub_cons_le p c t

theorem countSub_le_one (p : List Char) (hp : p ≠ []) :
    ∀ s, (∀ i j, p <+: s.drop i → p <+: s.drop j → i = j) → countSub p s ≤ 1 := by
  intro s
  induction s with
  | nil =>
    intro _
    simp only [countSub]
    split <;> omega
  | cons c t ih =>
    intro h
    by_cases hb : prefB p (c :: t) = true
    · have h0 : p <+: (c :: t).drop 0 := by
        rw [List.drop_zero]; exact (prefB_iff p (c :: t)).mp hb
      have hzero : countSub p t = 0 := by
        apply countSub_zero_of_no_match p hp
        intro i hi
        have := h 0 (i + 1) h0 (by rwa [List.drop_succ_cons])
        omega
      simp [countSub, hb, hzero]
    · simp only [countSub, hb, if_false, Bool.false_eq_true, Nat.zero_add]
      apply ih
      intro i j hi hj
      have := h (i + 1) (j + 1) (by rwa [List.drop_succ_cons]) (by rwa [List.drop_succ_cons])
      omega

theorem countSub_drop_le (p : List Char) : ∀ (k : Nat) (s : List Char),
    countSub p (s.drop k) ≤ countSub p s := by
  intro k
  induction k with
  | zero => intro s; rw [List.drop_zero]
  | succ k ih =>
    intro s
    cases s with
    | nil => rw [List.drop_nil]
    | cons c t =>
      rw [List.drop_succ_cons]
      calc countSub p (t.drop k) ≤ countSub p t := ih t
        _ ≤ countSub p (c :: t) := countSub_cons_le p c t

theorem countSub_succ_drop (p : List Char) (hp : p ≠ []) :
    ∀ (s : List Char) (d : Nat), p <+: s.drop d →
    1 + countSub p (s.drop (d + p.length)) ≤ countSub p s := by
  have hplen : 0 < p.length := List.length_pos.mpr hp
  intro s
  induction s with
  | nil =>
    intro d h
    rw [List.drop_nil] at h
    exact absurd (List.prefix_nil.mp h) hp
  | cons c t ih =>
    intro d h
    cases d with
    | zero =>
      rw [List.drop_zero] at h
      simp only [countSub, (prefB_iff p (c :: t)).mpr h, if_true, Nat.zero_add]
      have hd : (c :: t).drop p.length = t.drop (p.length - 1) := by
        obtain ⟨m, hm⟩ : ∃ m, p.length = m + 1 := ⟨p.length - 1, by omega⟩
        rw [hm, List.drop_succ_cons]
        congr 1
      rw [hd]
      have := countSub_drop_le p (p.length - 1) t
      omega
    | succ d =>
      rw [List.drop_succ_cons] at h
      have step : (c :: t).drop (d + 1 + p.length) = t.drop (d + p.length) := by
        have e : d + 1 + p.length = (d + p.length) + 1 := by omega
        rw [e, List.drop_succ_cons]
      rw [step]
      calc 1 + countSub p (t.drop (d + p.length)) ≤ countSub p t := ih d h
        _ ≤ countSub p (c :: t) := countSub_cons_le p c t

/-! ### Deletion leaves no occurrence, under the followed-by side condition -/

theorem delete_pref_reflect (p q : List Char) (hp : p ≠ [])
    (hph : ∀ p0 pt, p = p0 :: pt → p0 ∈ q) :
    ∀ (n : Nat) (s w : List Char), s.length ≤ n → w ≠ [] → (∀ x ∈ w, x ∈ q) →
    (∀ a d t, s = a ++ p ++ (d :: t) → d ∉ q) →
    w <+: replaceAll p [] s → w <+: s := by
  intro n
  induction n with
  | zero =>
    intro s w hn hw _ _ hpref
    have hs : s = [] := List.eq_nil_of_length_eq_zero (by omega)
    subst hs
    rw [replaceAll_nil] at hpref
    exact absurd (List.prefix_nil.mp hpref) hw
  | succ n ih =>
    intro s w hn hw hchars hii hpref
    by_cases hps : p <+: s
    · obtain ⟨s2, hs2⟩ := hps
      rw [← hs2] at hn hii hpref ⊢
      rw [replaceAll_pref_match p [] s2 hp, List.nil_append] at hpref
      cases s2 with
      | nil =>
        rw [replaceAll_nil] at hpref
        exact absurd (List.prefix_nil.mp hpref) hw
      | cons d t =>
        have hd : d ∉ q := hii [] d t (by simp)
        have hnp : prefB p (d :: t) = false := by
          rw [prefB_false_iff]
          intro hcon
          obtain ⟨p0, pt, hp0⟩ : ∃ p0 pt, p = p0 :: pt := by
            cases p with
            | nil => exact absurd rfl hp
            | cons a b => exact ⟨a, b, rfl⟩
          have hmem := hph p0 pt hp0
          rw [hp0, List.cons_prefix_cons] at hcon
          exact hd (hcon.1 ▸ hmem)
        rw [replaceAll_cons_neg p [] d t hnp] at hpref
        obtain ⟨w0, wt, rfl⟩ : ∃ w0 wt, w = w0 :: wt := by
          cases w with
          | nil => exact absurd rfl hw
          | cons a b => exact ⟨a, b, rfl⟩
        rw [List.cons_prefix_cons] at hpref
        exact absurd (hpref.1 ▸ hchars w0 (List.mem_cons_self w0 wt)) hd
    · cases s with
      | nil =>
        rw [replaceAll_nil] at hpref
        exact absurd (List.prefix_nil.mp hpref) hw
      | cons c t =>
        have hnp : prefB p (c :: t) = false := (prefB_false_iff _ _).mpr hps
        rw [replaceAll_cons_neg p [] c t hnp] at hpref
        obtain ⟨w0, wt, rfl⟩ : ∃ w0 wt, w = w0 :: wt := by
          cases w with
          | nil => exact absurd rfl hw
          | cons a b => exact ⟨a, b, rfl⟩
        rw [List.cons_prefix_cons] at hpref ⊢
        obtain ⟨rfl, hpref2⟩ := hpref
        refine ⟨rfl, ?_⟩
        cases wt with
        | nil => exact List.nil_prefix
        | cons e f =>
          apply ih t (e :: f) (by simp only [List.length_cons] at hn; omega)
            (by simp) (fun x hx => hchars x (List.mem_cons_of_mem _ hx))
            (fun a d t2 hab => hii (w0 :: a) d t2 (by rw [hab]; simp)) hpref2

theorem delete_no_occurrence (p q : List Char) (hp : p ≠ []) (hq : q ≠ [])
    (hph : ∀ p0 pt, p = p0 :: pt → p0 ∈ q) :
    ∀ (n : Nat) (s : List Char), s.length ≤ n →
    (∀ a b, s = a ++ q ++ b → ∃ b2, s = a ++ p ++ b2) →
    (∀ a d t, s = a ++ p ++ (d :: t) → d ∉ q) →
    ¬ q <:+: replaceAll p [] s := by
  intro n
  induction n with
  | zero =>
    intro s hn _ _ hinf
    have hs : s = [] := List.eq_nil_of_length_eq_zero (by omega)
    subst hs
    rw [replaceAll_nil] at hinf
    exact hq (List.infix_nil.mp hinf)
  | succ n ih =>
    intro s hn hstar hii hinf
    by_cases hps : p <+: s
    · obtain ⟨s2, hs2⟩ := hps
      rw [← hs2] at hn hstar hii hinf
      rw [replaceAll_pref_match p [] s2 hp, List.nil_append] at hinf
      have hn2 : s2.length ≤ n := by
        simp only [List.length_append] at hn
        have := List.length_pos.mpr hp
        omega
      have hstar2 : ∀ a b, s2 = a ++ q ++ b → ∃ b2, s2 = a ++ p ++ b2 := by
        intro a b hab
        obtain ⟨b2, hb2⟩ := hstar (p ++ a) b (by rw [hab]; simp)
        refine ⟨b2, ?_⟩
        have heq : p ++ s2 = p ++ (a ++ p ++ b2) := by
          rw [hb2]; simp
        exact List.append_cancel_left heq
      have hii2 : ∀ a d t, s2 = a ++ p ++ (d :: t) → d ∉ q := by
        intro a d t hab
        exact hii (p ++ a) d t (by rw [hab]; simp)
      exact ih s2 hn2 hstar2 hii2 hinf
    · cases s with
      | nil =>
        rw [replaceAll_nil] at hinf
        exact hq (List.infix_nil.mp hinf)
      | cons c t =>
        have hn2 : t.length ≤ n := by
          simp only [List.length_cons] at hn; omega
        have hnp : prefB p (c :: t) = false := (prefB_false_iff _ _).mpr hps
        rw [replaceAll_cons_neg p [] c t hnp] at hinf
        rw [List.infix_cons_iff] at hinf
        have hii_t : ∀ a d t2, t = a ++ p ++ (d :: t2) → d ∉ q := by
          intro a d t2 hab
          exact hii (c :: a) d t2 (by rw [hab]; simp)
        rcases hinf with hpref | hinf2
        · obtain ⟨q0, qt, rfl⟩ : ∃ q0 qt, q = q0 :: qt := by
            cases q with
            | nil => exact absurd rfl hq
            | cons a b => exact ⟨a, b, rfl⟩
          rw [List.cons_prefix_cons] at hpref
          obtain ⟨rfl, hqt⟩ := hpref
          cases qt with
          | nil =>
            obtain ⟨b2, hb2⟩ := hstar [] t (by simp)
            rw [List.nil_append] at hb2
            exact hps ⟨b2, hb2.symm⟩
          | cons e f =>
            have hw : (e :: f) <+: t := by
              apply delete_pref_reflect p (q0 :: e :: f) hp hph n t (e :: f) hn2
                (by simp) (fun x hx => List.mem_cons_of_mem _ hx) hii_t hqt
            obtain ⟨b, hb⟩ := hw
            obtain ⟨b2, hb2⟩ := hstar [] b (by rw [← hb]; simp)
            rw [List.nil_append] at hb2
            exact hps ⟨b2, hb2.symm⟩
        · have hstar_t : ∀ a b, t = a ++ q ++ b → ∃ b2, t = a ++ p ++ b2 := by
            intro a b hab
            obtain ⟨b2, hb2⟩ := hstar (c :: a) b (by rw [hab]; simp)
            simp only [List.cons_append] at hb2
            injection hb2 with h1 h2
            exact ⟨b2, h2⟩
          exact ih t hn2 hstar_t hii_t hinf2

/-- Convert the decidable `FollowedOk` into decomposition form. -/
theorem followedOk_elim (p q s : List Char) (hp : p ≠ []) (h : FollowedOk p q s) :
    ∀ a d t, s = a ++ p ++ (d :: t) → d ∉ q := by
  intro a d t hab
  have hlen : a.length < s.length := by
    rw [hab]
    simp only [List.length_append, List.length_cons]
    have := List.length_pos.mpr hp
    omega
  have hdrop : s.drop a.length = p ++ (d :: t) := by
    rw [hab, List.append_assoc, List.drop_left]
  have hpref : prefB p (s.drop a.length) = true := by
    rw [prefB_iff, hdrop]
    exact ⟨d :: t, rfl⟩
  have hdrop2 : s.drop (a.length + p.length) = d :: t := by
    rw [← dropAdd, hdrop, List.drop_left]
  have hfin := h a.length hlen hpref
  rw [hdrop2] at hfin
  exact hfin d (by simp)

/-- Step 2 leaves no occurrence of its pattern when every occurrence in the
input is followed by end-of-text or a character outside the pattern. -/
theorem step2_clears (s : List Char) (h : FollowedOk statePattern1 statePattern1 s) :
    ¬ statePattern1 <:+: step2 s := by
  have hp : statePattern1 ≠ [] := by decide
  show ¬ statePattern1 <:+: replaceAll statePattern1 [] s
  exact delete_no_occurrence statePattern1 statePattern1 hp hp
    (fun p0 pt hh => by rw [hh]; exact List.mem_cons_self p0 pt)
    s.length s (Nat.le_refl _)
    (fun a b hab => ⟨b, hab⟩)
    (followedOk_elim _ _ _ hp h)

/-- Step 3 cannot re-create the step-2 pattern when every occurrence of the
step-3 pattern is followed by end-of-text or a character outside the
step-2 pattern. -/
theorem step3_keeps_clear (s2 : List Char) (hclear : ¬ statePattern1 <:+: s2)
    (h3 : FollowedOk statePattern2 statePattern1 s2) :
    ¬ statePattern1 <:+: step3 s2 := by
  have hp2 : statePattern2 ≠ [] := by decide
  have hq : statePattern1 ≠ [] := by decide
  show ¬ statePattern1 <:+: replaceAll statePattern2 [] s2
  refine delete_no_occurrence statePattern2 statePattern1 hp2 hq ?_ s2.length s2
    (Nat.le_refl _) ?_ (followedOk_elim _ _ _ hp2 h3)
  · intro p0 pt hh
    have h1 : statePattern2.head? = some p0 := by rw [hh]; rfl
    have h2 : statePattern2.head? = some 'c' := by decide
    have h4 : p0 = 'c' := by
      have h5 : some p0 = some 'c' := h1.symm.trans h2
      injection h5
    rw [h4]
    decide
  · intro a b hab
    exact (hclear ⟨a, b, hab.symm⟩).elim

/-- Splice input for the step-2/step-4 interaction: two spaces, a stray `c`,
the step-2 pattern, and the pattern minus its first character. -/
def spliceInput : List Char := ' ' :: ' ' :: 'c' :: (statePattern1 ++ statePattern1.drop 1)

/-- Claim C6, counterexample.  The claim states that after step 2 the text
contains zero occurrences of the boolean-flag pattern, for every input.  On
the input `'c' ++ pattern ++ pattern.drop 1` the single deletion splices the
surrounding text into a fresh copy of the pattern, so the output is exactly
the pattern and still contains one occurrence. -/
theorem deletion_completeness_cex :
    step2 ('c' :: (statePattern1 ++ statePattern1.drop 1)) = statePattern1 ∧
    containsSub statePattern1 (step2 ('c' :: (statePattern1 ++ statePattern1.drop 1))) = true := by
  exact ⟨by decide, by decide⟩

/-- Claim C6, amended.  After step 2 the output contains zero occurrences of
the boolean-flag pattern, provided every occurrence of the pattern in the
input is immediately followed by end-of-text or by a character that does not
occur in the pattern (for instance a newline, as in the real source file);
without this proviso a deletion can splice a new occurrence together. -/
theorem deletion_completeness_amended (s : List Char)
    (h : FollowedOk statePattern1 statePattern1 s) :
    containsSub statePattern1 (step2 s) = false := by
  rw [containsSub_false_iff]
  exact step2_clears s h

theorem deletion_completeness_amended_witness :
    FollowedOk statePattern1 statePattern1 (statePattern1 ++ ['\n']) ∧
    containsSub statePattern1 (step2 (statePattern1 ++ ['\n'])) = false :=
  ⟨by decide, deletion_completeness_amended (statePattern1 ++ ['\n']) (by decide)⟩

/-- Claim C3, counterexample.  The claim states that step 4 can never match
after step 2, for every input.  On `spliceInput` step 2 splices the text
`"  " ++ pattern`, which is exactly step 4's target, so step 4 fires and the
pipeline with step 4 differs from the pipeline without it. -/
theorem step4_redundant_cex :
    step4 (step3 (step2 (step1 spliceInput))) ≠ step3 (step2 (step1 spliceInput)) ∧
    update_app_tsx spliceInput ≠ step5 (step3 (step2 (step1 spliceInput))) := by
  exact ⟨by decide, by decide⟩

/-- Claim C3, amended.  Step 4 is a no-op — and the pipeline with step 4 equals
the pipeline with step 4 omitted — whenever no new copy of the step-2 pattern
is spliced together by the deletions of steps 2 and 3: it suffices that every
occurrence of the step-2 pattern in the step-1 output, and every occurrence of
the step-3 pattern in the step-2 output, is followed by end-of-text or by a
character not occurring in the step-2 pattern. -/
theorem step4_redundant_amended (s : List Char)
    (h2 : FollowedOk statePattern1 statePattern1 (step1 s))
    (h3 : FollowedOk statePattern2 statePattern1 (step2 (step1 s))) :
    step4 (step3 (step2 (step1 s))) = step3 (step2 (step1 s)) ∧
    update_app_tsx s = step5 (step3 (step2 (step1 s))) := by
  have hA : ¬ statePattern1 <:+: step2 (step1 s) := step2_clears (step1 s) h2
  have hB : ¬ statePattern1 <:+: step3 (step2 (step1 s)) :=
    step3_keeps_clear (step2 (step1 s)) hA h3
  have hsub : statePattern1 <:+: indentedState1 := ⟨[' ', ' '], [], by rfl⟩
  have hC : ¬ indentedState1 <:+: step3 (step2 (step1 s)) := by
    intro hcon
    exact hB (hsub.trans hcon)
  have h4 : step4 (step3 (step2 (step1 s))) = step3 (step2 (step1 s)) := by
    show replaceAll indentedState1 replaceText _ = _
    apply replaceAll_id_of_not_contains
    rw [containsSub_false_iff]
    exact hC
  exact ⟨h4, by unfold update_app_tsx; rw [h4]⟩

theorem step4_redundant_amended_witness :
    FollowedOk statePattern1 statePattern1 (step1 (statePattern1 ++ ['\n'])) ∧
    FollowedOk statePattern2 statePattern1 (step2 (step1 (statePattern1 ++ ['\n']))) ∧
    (step4 (step3 (step2 (step1 (statePattern1 ++ ['\n'])))) =
      step3 (step2 (step1 (statePattern1 ++ ['\n']))) ∧
    update_app_tsx (statePattern1 ++ ['\n']) =
      step5 (step3 (step2 (step1 (statePattern1 ++ ['\n']))))) :=
  ⟨by decide, by decide,
    step4_redundant_amended (statePattern1 ++ ['\n']) (by decide) (by decide)⟩

theorem excise_none (sig c : List Char) (h : findSub sig c = none) : excise sig c = c := by
  unfold excise
  rw [h]

/-- Claim C5: if the input text contains none of the recognized patterns
(the useNotifications marker, the anchor line, the two state-declaration
patterns, step 4's literal target and the three function signatures), the
whole transformation returns the input unchanged. -/
theorem noop_safety (s : List Char)
    (h1 : containsSub importHookMarker s = false)
    (h2 : containsSub anchorLine s = false)
    (h3 : containsSub statePattern1 s = false)
    (h4 : containsSub statePattern2 s = false)
    (h5 : containsSub indentedState1 s = false)
    (h6 : containsSub showSig s = false)
    (h7 : containsSub requestSig s = false)
    (h8 : containsSub scheduleSig s = false) :
    update_app_tsx s = s := by
  have e1 : step1 s = s := by
    unfold step1
    rw [h1]
    simp only [Bool.false_eq_true, if_false]
    exact replaceAll_id_of_not_contains _ _ _ h2
  have e2 : step2 s = s := replaceAll_id_of_not_contains _ _ _ h3
  have e3 : step3 s = s := replaceAll_id_of_not_contains _ _ _ h4
  have e4 : step4 s = s := replaceAll_id_of_not_contains _ _ _ h5
  have e5 : step5 s = s := by
    unfold step5
    rw [excise_none showSig s (findSub_none_of_not_contains _ _ h6),
      excise_none requestSig s (findSub_none_of_not_contains _ _ h7),
      excise_none scheduleSig s (findSub_none_of_not_contains _ _ h8)]
  unfold update_app_tsx
  rw [e1, e2, e3, e4, e5]

theorem noop_safety_witness :
    (containsSub importHookMarker "export default App;\n".data = false ∧
     containsSub anchorLine "export default App;\n".data = false ∧
     containsSub statePattern1 "export default App;\n".data = false ∧
     containsSub statePattern2 "export default App;\n".data = false ∧
     containsSub indentedState1 "export default App;\n".data = false ∧
     containsSub showSig "export default App;\n".data = false ∧
     containsSub requestSig "export default App;\n".data = false ∧
     containsSub scheduleSig "export default App;\n".data = false) ∧
    update_app_tsx "export default App;\n".data = "export default App;\n".data :=
  ⟨⟨by decide, by decide, by decide, by decide, by decide, by decide, by decide, by decide⟩,
    noop_safety "export default App;\n".data (by decide) (by decide) (by decide) (by decide)
      (by decide) (by decide) (by decide) (by decide)⟩

/-- Claim C10: the transformation is a deterministic pure function of the
input text — equal inputs give equal outputs. -/
theorem update_deterministic (s t : List Char) (h : s = t) :
    update_app_tsx s = update_app_tsx t := by
  rw [h]

theorem update_deterministic_witness :
    "a".data = "a".data ∧ update_app_tsx "a".data = update_app_tsx "a".data :=
  ⟨rfl, update_deterministic "a".data "a".data rfl⟩

/-- Claim C8: when a recognized signature occurs but the closing marker does
not occur at or after its first occurrence, the excision step for that
function leaves the text unchanged (and, being a total function, raises no
error). -/
theorem excision_partial_noop (sig c : List Char) (st : Nat)
    (_hsig : sig = showSig ∨ sig = requestSig ∨ sig = scheduleSig)
    (hfound : findSub sig c = some st)
    (hnomark : findSub closeMarker (c.drop st) = none) :
    excise sig c = c := by
  unfold excise
  rw [hfound]
  show (match findSub closeMarker (c.drop st) with
    | none => c
    | some e => c.take st ++ c.drop (st + e + 3)) = c
  rw [hnomark]

theorem excision_partial_noop_witness :
    (showSig = showSig ∨ showSig = requestSig ∨ showSig = scheduleSig) ∧
    findSub showSig showSig = some 0 ∧
    findSub closeMarker (showSig.drop 0) = none ∧
    excise showSig showSig = showSig :=
  ⟨Or.inl rfl, by decide, by decide,
    excision_partial_noop showSig showSig 0 (Or.inl rfl) (by decide) (by decide)⟩

/-- Concrete scenario B input: the requestNotificationPermission signature,
a small body, its two-space-indented closing brace, and unrelated trailing
text containing none of the other recognized patterns. -/
def scenarioBInput : List Char :=
  requestSig ++ "\n  ...\n  \x7d\n".data ++ "export default App;\n".data

/-- Claim C2, counterexample.  The claim predicts the output is exactly the
unrelated trailing text; in fact the excision keeps the closing brace of the
marker (the slice starts at `end+3`, the index of the brace inside the
four-character marker), so the output starts with a stray brace and newline. -/
theorem scenarioB_cex :
    update_app_tsx scenarioBInput ≠ "export default App;\n".data := by decide

/-- Claim C2, amended.  On the scenario-B input the transformation removes the
function from the signature through the newline and two spaces of the closing
marker, keeping the marker's brace: the output is the brace and its newline
followed by the unchanged trailing text. -/
theorem scenarioB_amended :
    update_app_tsx scenarioBInput = "\x7d\n".data ++ "export default App;\n".data := by decide

/-- Concrete scenario A input: the anchor line, a newline, the unindented
boolean-flag declaration, and a final newline. -/
def scenarioAInput : List Char := anchorLine ++ '\n' :: (statePattern1 ++ ['\n'])

/-- Claim C4, counterexample.  The claim predicts the output contains the
multi-line hook-destructuring block in place of the useState declaration; in
fact step 2 deletes that declaration before step 4 can see it, step 4's
two-space-indented target never occurs, and the block is never inserted: the
output does not contain the block at all. -/
theorem scenarioA_cex :
    containsSub replaceText (update_app_tsx scenarioAInput) = false := by decide

/-- Claim C4, amended.  On the scenario-A input the new import line is indeed
inserted immediately after the DeletedPost anchor line, but the useState
declaration is simply deleted by step 2 (leaving its surrounding newlines);
the hook-destructuring block is never inserted because step 4's indented
target no longer occurs. -/
theorem scenarioA_amended :
    update_app_tsx scenarioAInput = anchorLine ++ '\n' :: (newImportLine ++ ['\n', '\n']) := by
  decide

/-- Claim C1, counterexample.  The claim predicts that the excised span
includes the closing brace of the marker, so on the input consisting of
exactly a signature followed by the marker the predicted output is empty; the
code keeps the brace (the kept slice starts at `end+3`, the marker's brace). -/
theorem excision_bounds_cex :
    excise showSig (showSig ++ closeMarker) = "\x7d".data ∧
    excise showSig (showSig ++ closeMarker) ≠ [] :=
  ⟨by decide, by decide⟩

/-- Claim C1, amended.  When a recognized signature first occurs at position
`|a|` and the closing marker first occurs (at or after it) right after `w`,
the excision deletes the span from the signature start through the marker's
newline and two spaces only: the marker's closing brace is kept, and all
characters outside the span are unchanged, giving `a ++ "\x7d" ++ b`. -/
theorem excision_bounds_amended (sig a w b : List Char)
    (hsig : sig = showSig ∨ sig = requestSig ∨ sig = scheduleSig)
    (ha : noMatchBelow sig (a ++ sig ++ w ++ closeMarker ++ b) a.length)
    (hw : noMatchBelow closeMarker (sig ++ w ++ closeMarker ++ b) (sig.length + w.length)) :
    excise sig (a ++ sig ++ w ++ closeMarker ++ b) = a ++ "\x7d".data ++ b := by
  have hsne : sig ≠ [] := by
    rcases hsig with rfl | rfl | rfl <;> decide
  have hmne : closeMarker ≠ [] := by decide
  have hdropa : (a ++ sig ++ w ++ closeMarker ++ b).drop a.length
      = sig ++ w ++ closeMarker ++ b := by
    have e : a ++ sig ++ w ++ closeMarker ++ b = a ++ (sig ++ w ++ closeMarker ++ b) := by
      simp [List.append_assoc]
    rw [e, List.drop_left]
  have hfind1 : findSub sig (a ++ sig ++ w ++ closeMarker ++ b) = some a.length := by
    apply findSub_some sig hsne
    · rw [hdropa]
      exact ⟨w ++ closeMarker ++ b, by simp [List.append_assoc]⟩
    · exact fun i hi => ha i hi
  have hfind2 : findSub closeMarker ((a ++ sig ++ w ++ closeMarker ++ b).drop a.length)
      = some (sig.length + w.length) := by
    rw [hdropa]
    apply findSub_some closeMarker hmne
    · have e : sig ++ w ++ closeMarker ++ b = (sig ++ w) ++ (closeMarker ++ b) := by
        simp [List.append_assoc]
      have e2 : sig.length + w.length = (sig ++ w).length := (List.length_append _ _).symm
      rw [e, e2, List.drop_left]
      exact ⟨b, rfl⟩
    · exact fun i hi => hw i hi
  have htake : (a ++ sig ++ w ++ closeMarker ++ b).take a.length = a := by
    have e : a ++ sig ++ w ++ closeMarker ++ b = a ++ (sig ++ w ++ closeMarker ++ b) := by
      simp [List.append_assoc]
    rw [e, List.take_left]
  have hdrop3 : (a ++ sig ++ w ++ closeMarker ++ b).drop
      (a.length + (sig.length + w.length) + 3) = "\x7d".data ++ b := by
    have e : a ++ sig ++ w ++ closeMarker ++ b = (a ++ sig ++ w) ++ (closeMarker ++ b) := by
      simp [List.append_assoc]
    have e2 : a.length + (sig.length + w.length) + 3 = (a ++ sig ++ w).length + 3 := by
      simp only [List.length_append]
      omega
    rw [e, e2, List.drop_append 3]
    rfl
  unfold excise
  rw [hfind1]
  show (match findSub closeMarker ((a ++ sig ++ w ++ closeMarker ++ b).drop a.length) with
    | none => a ++ sig ++ w ++ closeMarker ++ b
    | some e => (a ++ sig ++ w ++ closeMarker ++ b).take a.length
        ++ (a ++ sig ++ w ++ closeMarker ++ b).drop (a.length + e + 3))
      = a ++ "\x7d".data ++ b
  rw [hfind2]
  show (a ++ sig ++ w ++ closeMarker ++ b).take a.length
      ++ (a ++ sig ++ w ++ closeMarker ++ b).drop (a.length + (sig.length + w.length) + 3)
      = a ++ "\x7d".data ++ b
  rw [htake, hdrop3, List.append_assoc]

theorem excision_bounds_amended_witness :
    (showSig = showSig ∨ showSig = requestSig ∨ showSig = scheduleSig) ∧
    noMatchBelow showSig
      ("A\n".data ++ showSig ++ "\n  x".data ++ closeMarker ++ "B".data) "A\n".data.length ∧
    noMatchBelow closeMarker
      (showSig ++ "\n  x".data ++ closeMarker ++ "B".data) (showSig.length + "\n  x".data.length) ∧
    excise showSig ("A\n".data ++ showSig ++ "\n  x".data ++ closeMarker ++ "B".data)
      = "A\n".data ++ "\x7d".data ++ "B".data :=
  ⟨Or.inl rfl, by decide, by decide,
    excision_bounds_amended showSig "A\n".data "\n  x".data "B".data
      (Or.inl rfl) (by decide) (by decide)⟩

/-! ### Step 1 idempotence and insertion count -/

theorem step1_of_contains (x : List Char) (hx : containsSub importHookMarker x = true) :
    step1 x = x := by
  unfold step1
  rw [hx, if_pos rfl]

theorem infix_of_match (p x : List Char) (k : Nat) (h : p <+: x.drop k) : p <:+: x :=
  h.isInfix.trans (List.drop_suffix k x).isInfix

theorem infix_append_right_ext (q x y : List Char) (h : q <:+: y) : q <:+: x ++ y := by
  obtain ⟨pre, suf, he⟩ := h
  exact ⟨x ++ pre, suf, by rw [← he]; simp [List.append_assoc]⟩

theorem infix_append_left_ext (q x y : List Char) (h : q <:+: x) : q <:+: x ++ y := by
  obtain ⟨pre, suf, he⟩ := h
  exact ⟨pre, suf ++ y, by rw [← he]; simp [List.append_assoc]⟩

theorem border_contra (L : List Char) (hfree : borderFree L) (k : Nat)
    (h1 : 0 < k) (h2 : k < L.length) (hb : L.drop k <+: L) : False := by
  have hk := hfree k h2 h1
  rw [prefB_false_iff] at hk
  exact hk hb

theorem countSub_one_decomp (p : List Char) (hp : p ≠ []) (s : List Char)
    (h : countSub p s = 1) :
    ∃ a b, s = a ++ p ++ b ∧ ∀ i, p <+: s.drop i → i = a.length := by
  obtain ⟨i, hi⟩ := countSub_exists_of_pos p s (by omega)
  obtain ⟨u, hu⟩ := hi
  have hilen : i ≤ s.length := by
    by_contra hgt
    have hnil : s.drop i = [] := List.drop_eq_nil_of_le (by omega)
    rw [hnil] at hu
    exact hp (List.append_eq_nil.mp hu).1
  have hi2 : p <+: s.drop i := ⟨u, hu⟩
  refine ⟨s.take i, u, ?_, ?_⟩
  · rw [List.append_assoc, hu, List.take_append_drop]
  · intro j hj
    have hlen2 : (s.take i).length = i := by rw [List.length_take]; omega
    rw [hlen2]
    by_contra hne
    rcases Nat.lt_or_ge j i with hlt | hge
    · have := countSub_ge_two p hp s j i hlt hj hi2
      omega
    · have hlt2 : i < j := by omega
      have := countSub_ge_two p hp s i j hlt2 hi2 hj
      omega

/-- Any match of the inserted import line inside `a ++ importReplacement ++ b`
is the designated one, provided the useNotifications marker does not occur in
the original text `a ++ anchorLine ++ b`. -/
theorem newImport_unique_pos (a b : List Char)
    (hnot : ¬ importHookMarker <:+: a ++ anchorLine ++ b) :
    ∀ m, newImportLine <+: (a ++ importReplacement ++ b).drop m →
      m = (a ++ anchorLine ++ ['\n']).length := by
  intro m hm
  have hLne : newImportLine ≠ [] := by decide
  have hborder : borderFree newImportLine := by decide
  have hok : importHookMarker <+: newImportLine := (prefB_iff _ _).mp (by decide)
  have hnl : ('\n' : Char) ∉ newImportLine := by decide
  have ho : a ++ importReplacement ++ b
      = ((a ++ anchorLine) ++ ['\n']) ++ (newImportLine ++ b) := by
    unfold importReplacement
    simp [List.append_assoc]
  have hd : newImportLine <+:
      (a ++ importReplacement ++ b).drop ((a ++ anchorLine ++ ['\n']).length) := by
    rw [ho, List.drop_left]
    exact ⟨b, rfl⟩
  rcases Nat.lt_trichotomy m ((a ++ anchorLine ++ ['\n']).length) with hlt | heq | hgt
  · by_cases hov : (a ++ anchorLine ++ ['\n']).length < m + newImportLine.length
    · exact absurd
        (overlap_border newImportLine (a ++ importReplacement ++ b) m
          ((a ++ anchorLine ++ ['\n']).length) hlt hov hm hd)
        (fun hb => border_contra newImportLine hborder _ (by omega) (by omega) hb)
    · exfalso
      have hin : newImportLine <:+:
          (a ++ importReplacement ++ b).take ((a ++ anchorLine ++ ['\n']).length) :=
        infix_take_of_match _ _ m _ hLne hm (by omega)
      have htake : (a ++ importReplacement ++ b).take ((a ++ anchorLine ++ ['\n']).length)
          = (a ++ anchorLine) ++ ['\n'] := by
        rw [ho]
        exact List.take_left _ _
      rw [htake] at hin
      have hin2 : newImportLine <:+: a ++ anchorLine :=
        infix_of_infix_append_single _ _ '\n' hLne hnl hin
      exact hnot (infix_append_left_ext _ _ _ (hok.isInfix.trans hin2))
  · exact heq
  · by_cases hov : m < (a ++ anchorLine ++ ['\n']).length + newImportLine.length
    · exact absurd
        (overlap_border newImportLine (a ++ importReplacement ++ b)
          ((a ++ anchorLine ++ ['\n']).length) m hgt hov hd hm)
        (fun hb => border_contra newImportLine hborder _ (by omega) (by omega) hb)
    · exfalso
      have e : a ++ importReplacement ++ b
          = (((a ++ anchorLine) ++ ['\n']) ++ newImportLine) ++ b := by
        unfold importReplacement
        simp [List.append_assoc]
      have hlenu : (((a ++ anchorLine) ++ ['\n']) ++ newImportLine).length
          = (a ++ anchorLine ++ ['\n']).length + newImportLine.length := by
        simp [List.length_append]
        omega
      rw [e, drop_append_of_left_le _ _ m (by omega)] at hm
      have hb : newImportLine <:+: b := infix_of_match _ _ _ hm
      exact hnot (infix_append_right_ext _ _ _ (hok.isInfix.trans hb))

theorem step1_insert_count (a b : List Char)
    (hnot : containsSub importHookMarker (a ++ anchorLine ++ b) = false) :
    countSub newImportLine (a ++ importReplacement ++ b) ≤ 1 := by
  apply countSub_le_one newImportLine (by decide)
  intro i j hi hj
  have hn := (containsSub_false_iff _ _).mp hnot
  rw [newImport_unique_pos a b hn i hi, newImport_unique_pos a b hn j hj]

/-- Claim C7: for inputs containing the anchor line exactly once, the
import-insertion step is idempotent — a second application returns its input
unchanged — and running it twice leaves at most one copy of the inserted
useNotifications import line beyond any copies already present in the input. -/
theorem import_insertion_idempotent (s : List Char)
    (h : countSub anchorLine s = 1) :
    step1 (step1 s) = step1 s ∧
    countSub newImportLine (step1 (step1 s)) ≤ max (countSub newImportLine s) 1 := by
  by_cases hc : containsSub importHookMarker s = true
  · have e : step1 s = s := step1_of_contains s hc
    rw [e, e]
    exact ⟨rfl, Nat.le_max_left _ _⟩
  · have hcf : containsSub importHookMarker s = false := by
      cases hcs : containsSub importHookMarker s
      · rfl
      · exact absurd hcs hc
    obtain ⟨a, b, hs, huniq⟩ := countSub_one_decomp anchorLine (by decide) s h
    have hane : anchorLine ≠ [] := by decide
    have hstep : step1 s = a ++ importReplacement ++ b := by
      unfold step1
      rw [hcf]
      simp only [Bool.false_eq_true, if_false]
      rw [hs, List.append_assoc]
      rw [replaceAll_skip anchorLine importReplacement a (anchorLine ++ b) ?_]
      · rw [replaceAll_pref_match anchorLine importReplacement b hane,
          replaceAll_id_of_not_contains anchorLine importReplacement b ?_]
        · rw [List.append_assoc]
        · rw [containsSub_false_iff]
          rintro ⟨pre, suf, hb⟩
          have e2 : s = (a ++ anchorLine ++ pre) ++ (anchorLine ++ suf) := by
            rw [hs, ← hb]
            simp [List.append_assoc]
          have hmatch : anchorLine <+: s.drop ((a ++ anchorLine ++ pre).length) := by
            rw [e2, List.drop_left]
            exact ⟨suf, rfl⟩
          have h3 := huniq _ hmatch
          have h4 : 0 < anchorLine.length := by decide
          simp only [List.length_append] at h3
          omega
      · intro i hi hcon
        have hcon2 : anchorLine <+: s.drop i := by
          rw [hs, List.append_assoc]
          exact hcon
        have := huniq i hcon2
        omega
    have himp : containsSub importHookMarker (step1 s) = true := by
      rw [containsSub_iff, hstep]
      obtain ⟨t, ht⟩ := (prefB_iff importHookMarker newImportLine).mp (by decide)
      refine ⟨a ++ anchorLine ++ ['\n'], t ++ b, ?_⟩
      unfold importReplacement
      rw [← ht]
      simp [List.append_assoc]
    have e2 : step1 (step1 s) = step1 s := step1_of_contains (step1 s) himp
    refine ⟨e2, ?_⟩
    rw [e2, hstep]
    have hcount : countSub newImportLine (a ++ importReplacement ++ b) ≤ 1 := by
      apply step1_insert_count
      rw [← hs]
      exact hcf
    exact Nat.le_trans hcount (Nat.le_max_right _ _)

theorem import_insertion_idempotent_witness :
    countSub anchorLine anchorLine = 1 ∧
    (step1 (step1 anchorLine) = step1 anchorLine ∧
     countSub newImportLine (step1 (step1 anchorLine)) ≤
       max (countSub newImportLine anchorLine) 1) :=
  ⟨by decide, import_insertion_idempotent anchorLine (by decide)⟩

/-! ### Step 1 inserts after every anchor occurrence -/

/-- Join text segments, placing the separator between consecutive segments. -/
def joinParts (sep : List Char) : List (List Char) → List Char
  | [] => []
  | [x] => x
  | x :: y :: rest => x ++ sep ++ joinParts sep (y :: rest)

theorem anchor_no_match_in_seg (p x rest : List Char) (hp : p ≠ [])
    (hfree : borderFree p) (hx : containsSub p x = false) :
    ∀ i, i < x.length → ¬ p <+: (x ++ (p ++ rest)).drop i := by
  intro i hi hcon
  have hd : p <+: (x ++ (p ++ rest)).drop x.length := by
    rw [List.drop_left]
    exact ⟨rest, rfl⟩
  by_cases hcase : i + p.length ≤ x.length
  · have hin : p <:+: (x ++ (p ++ rest)).take x.length :=
      infix_take_of_match _ _ i _ hp hcon hcase
    rw [List.take_left] at hin
    exact absurd ((containsSub_iff _ _).mpr hin) (by rw [hx]; simp)
  · exact border_contra p hfree (x.length - i) (by omega) (by omega)
      (overlap_border p (x ++ (p ++ rest)) i x.length hi (by omega) hcon hd)

theorem replaceAll_joinParts (p r : List Char) (hp : p ≠ []) (hfree : borderFree p) :
    ∀ parts : List (List Char), (∀ x ∈ parts, containsSub p x = false) →
    replaceAll p r (joinParts p parts) = joinParts r parts := by
  intro parts
  induction parts with
  | nil => intro _; rfl
  | cons x rest ih =>
    intro hall
    cases rest with
    | nil =>
      show replaceAll p r x = x
      exact replaceAll_id_of_not_contains p r x (hall x (by simp))
    | cons y rest2 =>
      show replaceAll p r (x ++ p ++ joinParts p (y :: rest2))
        = x ++ r ++ joinParts r (y :: rest2)
      rw [List.append_assoc]
      rw [replaceAll_skip p r x (p ++ joinParts p (y :: rest2))
        (anchor_no_match_in_seg p x (joinParts p (y :: rest2)) hp hfree (hall x (by simp)))]
      rw [replaceAll_pref_match p r (joinParts p (y :: rest2)) hp]
      rw [ih (fun z hz => hall z (by simp [hz]))]
      rw [List.append_assoc]

theorem countSub_joinParts_ge (parts : List (List Char)) :
    parts.length - 1 ≤ countSub newImportLine (joinParts importReplacement parts) := by
  induction parts with
  | nil => simp
  | cons x rest ih =>
    cases rest with
    | nil => simp
    | cons y rest2 =>
      have hLne : newImportLine ≠ [] := by decide
      have egoal : joinParts importReplacement (x :: y :: rest2)
          = x ++ importReplacement ++ joinParts importReplacement (y :: rest2) := rfl
      have e : x ++ importReplacement ++ joinParts importReplacement (y :: rest2)
          = ((x ++ anchorLine) ++ ['\n'])
            ++ (newImportLine ++ joinParts importReplacement (y :: rest2)) := by
        unfold importReplacement
        simp [List.append_assoc]
      have hmatch : newImportLine <+:
          (x ++ importReplacement ++ joinParts importReplacement (y :: rest2)).drop
            ((x ++ anchorLine ++ ['\n']).length) := by
        rw [e, List.drop_left]
        exact ⟨_, rfl⟩
      have hdropafter :
          (x ++ importReplacement ++ joinParts importReplacement (y :: rest2)).drop
            ((x ++ anchorLine ++ ['\n']).length + newImportLine.length)
          = joinParts importReplacement (y :: rest2) := by
        have e3 : x ++ importReplacement ++ joinParts importReplacement (y :: rest2)
            = (((x ++ anchorLine) ++ ['\n']) ++ newImportLine)
              ++ joinParts importReplacement (y :: rest2) := by
          unfold importReplacement
          simp [List.append_assoc]
        have e4 : (x ++ anchorLine ++ ['\n']).length + newImportLine.length
            = ((((x ++ anchorLine) ++ ['\n']) ++ newImportLine)).length := by
          simp [List.length_append]
          omega
        rw [e3, e4, List.drop_left]
      have hkey := countSub_succ_drop newImportLine hLne
        (x ++ importReplacement ++ joinParts importReplacement (y :: rest2))
        ((x ++ anchorLine ++ ['\n']).length) hmatch
      rw [hdropafter] at hkey
      rw [egoal]
      simp only [List.length_cons] at ih ⊢
      omega

/-- Claim C9 (implicit): when the useNotifications marker is absent and the
anchor line occurs k ≥ 1 times — the input splits into k+1 segments joined by
the anchor, with no anchor occurrence inside any segment — step 1 inserts a
copy of the new import line after every occurrence of the anchor: the output
is the same segments joined by anchor line + newline + new import line, and it
contains at least k copies of the inserted line, not only one. -/
theorem insert_after_every_anchor (parts : List (List Char))
    (hk : 2 ≤ parts.length)
    (hparts : ∀ x ∈ parts, containsSub anchorLine x = false)
    (hhook : containsSub importHookMarker (joinParts anchorLine parts) = false) :
    step1 (joinParts anchorLine parts) = joinParts importReplacement parts ∧
    parts.length - 1 ≤ countSub newImportLine (step1 (joinParts anchorLine parts)) := by
  have hane : anchorLine ≠ [] := by decide
  have hfree : borderFree anchorLine := by decide
  have hstep : step1 (joinParts anchorLine parts) = joinParts importReplacement parts := by
    unfold step1
    rw [hhook]
    simp only [Bool.false_eq_true, if_false]
    exact replaceAll_joinParts anchorLine importReplacement hane hfree parts hparts
  refine ⟨hstep, ?_⟩
  rw [hstep]
  have := hk
  exact countSub_joinParts_ge parts

theorem insert_after_every_anchor_witness :
    2 ≤ (["A\n".data, "B\n".data, "C".data] : List (List Char)).length ∧
    (∀ x ∈ (["A\n".data, "B\n".data, "C".data] : List (List Char)),
      containsSub anchorLine x = false) ∧
    containsSub importHookMarker
      (joinParts anchorLine ["A\n".data, "B\n".data, "C".data]) = false ∧
    (step1 (joinParts anchorLine ["A\n".data, "B\n".data, "C".data])
        = joinParts importReplacement ["A\n".data, "B\n".data, "C".data] ∧
      (["A\n".data, "B\n".data, "C".data] : List (List Char)).length - 1 ≤
        countSub newImportLine
          (step1 (joinParts anchorLine ["A\n".data, "B\n".data, "C".data]))) :=
  ⟨by decide, by decide, by decide,
    insert_after_every_anchor ["A\n".data, "B\n".data, "C".data]
      (by decide) (by decide) (by decide)⟩
